import Mathlib

/-!
Shallow embedding of the two scripts of the repository
(`download_kms_docs.py`, `search_and_highlight.py`) and proofs about the
behaviour of their pure cores: filename sanitisation, URL extension
guessing, collision-free path selection, HTML table column detection,
exit codes, and PDF hit-rectangle deduplication / highlighting.

Strings are embedded as `List Char`.  Python library calls used by the
scripts (`str.strip`, `re.sub` with the patterns appearing in the code,
`html.unescape`, `str.lower`, `urllib.parse.urlparse`, `os.path.splitext`,
`mimetypes.guess_extension`, `round`) are modelled explicitly below, each
next to the definition that uses it.
-/

namespace Gost

/-- Python `str.isspace` / regex `\s` (Unicode whitespace): the set of
characters stripped by `str.strip()` and collapsed by `re.sub(r"\s+", " ")`. -/
def pyIsSpace (c : Char) : Bool :=
  c = ' ' || c = '\t' || c = '\n' || c = '\x0b' || c = '\x0c' || c = '\r' ||
  c = '\x1c' || c = '\x1d' || c = '\x1e' || c = '\x1f' ||
  c = '\u0085' || c = '\u00A0' || c = '\u1680' ||
  ('\u2000' ≤ c && c ≤ '\u200A') ||
  c = '\u2028' || c = '\u2029' || c = '\u202F' || c = '\u205F' || c = '\u3000'

/-- Python `str.strip()`: drop leading and trailing whitespace. -/
def pyStrip (s : List Char) : List Char :=
  ((s.dropWhile pyIsSpace).reverse.dropWhile pyIsSpace).reverse

/-- Scanner core of `re.sub(r"\s+", " ", s)`: `prevWs` records whether the
previous character belonged to a whitespace run already emitted as `' '`. -/
def collapseGo (prevWs : Bool) : List Char → List Char
  | [] => []
  | c :: rest =>
    if pyIsSpace c then
      if prevWs then collapseGo true rest else ' ' :: collapseGo true rest
    else c :: collapseGo false rest

/-- Python `re.sub(r"\s+", " ", s)`: replace every maximal whitespace run
with a single ASCII space. -/
def collapseWs (s : List Char) : List Char := collapseGo false s

/-- The character class of `re.sub(r'[<>:"/\\|?*\x00-\x1F]', "_", name)`:
characters illegal in filenames on common filesystems. -/
def illegalChar (c : Char) : Bool :=
  c = '<' || c = '>' || c = ':' || c = '"' || c = '/' || c = '\\' ||
  c = '|' || c = '?' || c = '*' || c.val ≤ 0x1F

/-- `re.sub(r'[<>:"/\\|?*\x00-\x1F]', "_", name)`: replace each illegal
character with an underscore. -/
def replaceIllegal (s : List Char) : List Char :=
  s.map (fun c => if illegalChar c then '_' else c)

/-- Python `str.lower()` restricted to the alphabets the scripts meet:
ASCII letters and the Cyrillic range (U+0410..U+042F and U+0401), which
covers the Russian header texts the code normalises.  Others are kept. -/
def pyLowerChar (c : Char) : Char :=
  if 'A' ≤ c && c ≤ 'Z' then Char.ofNat (c.toNat + 32)
  else if 'А' ≤ c && c ≤ 'Я' then Char.ofNat (c.toNat + 32)
  else if c = 'Ё' then 'ё'
  else c

/-- Fragment of the HTML5 named-entity table used by `html.unescape`,
covering the entities relevant to the proofs; each name decodes with or
without the trailing semicolon, as in Python. -/
def entityTable : List (List Char × Char) :=
  [("amp".toList, '&'), ("lt".toList, '<'), ("gt".toList, '>'),
   ("quot".toList, '"'), ("nbsp".toList, '\u00A0')]

/-- Try to match one entity name (with preferred trailing `;`) at the head
of `s`; returns the decoded character and the number of consumed chars. -/
def tryEntity : List (List Char × Char) → List Char → Option (Char × Nat)
  | [], _ => none
  | (name, ch) :: rest, s =>
    if (name ++ [';']).isPrefixOf s then some (ch, name.length + 1)
    else if name.isPrefixOf s then some (ch, name.length)
    else tryEntity rest s

/-- Fuel-indexed core of `html.unescape` (the fuel only makes the
recursion structural; `pyUnescape` supplies enough for the whole input). -/
def unescapeGo : Nat → List Char → List Char
  | _, [] => []
  | 0, l => l
  | fuel + 1, c :: rest =>
    if c = '&' then
      match tryEntity entityTable rest with
      | some (ch, n) => ch :: unescapeGo fuel (rest.drop n)
      | none => '&' :: unescapeGo fuel rest
    else c :: unescapeGo fuel rest

/-- Python `html.unescape`: single left-to-right pass decoding `&`-entities
(modelled over `entityTable`); an `&` that starts no known entity stays. -/
def pyUnescape (s : List Char) : List Char := unescapeGo s.length s

/-- `sanitize_filename` of `download_kms_docs.py`:
`html.unescape(name).strip()`, replace illegal characters by `_`,
collapse whitespace runs, truncate to 180 chars, and fall back to
`"document"` when empty. -/
def sanitize_filename (name : List Char) : List Char :=
  let n1 := pyStrip (pyUnescape name)
  let n2 := collapseWs (replaceIllegal n1)
  let n3 := n2.take 180
  if n3.isEmpty then "document".toList else n3

/-- `sanitize_for_fs` of `search_and_highlight.py`: replace illegal
characters by `_`, strip, collapse whitespace runs, truncate to 120 chars,
and fall back to `"query"` when empty. -/
def sanitize_for_fs (name : List Char) : List Char :=
  let n1 := pyStrip (replaceIllegal name)
  let n2 := collapseWs n1
  let n3 := n2.take 120
  if n3.isEmpty then "query".toList else n3

/-- `normalize_text` of `download_kms_docs.py`: fold no-break / invisible
spaces to a space, strip, collapse whitespace runs, lowercase. -/
def normalize_text (s : List Char) : List Char :=
  let s1 := s.map (fun c =>
    if c = '\u00A0' || c = '\u200B' || c = '\uFEFF' then ' ' else c)
  (collapseWs (pyStrip s1)).map pyLowerChar

/-- Proof-helper predicate satisfied by sanitizer outputs: every
whitespace character is an ASCII space, and no whitespace character is
directly followed by another one. -/
def wsOk : List Char → Bool
  | [] => true
  | c :: rest =>
    (!pyIsSpace c || (c == ' ' && !pyIsSpace (rest.headD 'a'))) && wsOk rest

/-- `needle in hay` for Python strings: `needle` occurs as a contiguous
substring of `hay`. -/
def hasSubstr (needle : List Char) : List Char → Bool
  | [] => needle.isEmpty
  | c :: rest => needle.isPrefixOf (c :: rest) || hasSubstr needle rest

/-- Split a list at the first occurrence of `ch`; `none` when absent. -/
def splitFirst (ch : Char) : List Char → Option (List Char × List Char)
  | [] => none
  | c :: rest =>
    if c = ch then some ([], rest)
    else (splitFirst ch rest).map (fun p => (c :: p.1, p.2))

/-- Python `str.find(ch, start)` as an index option. -/
def pyFind (ch : Char) (p : List Char) (start : Nat) : Option Nat :=
  (List.range p.length).find? (fun i => decide (start ≤ i) && (p.getD i ' ' == ch))

/-- Python `str.rfind(ch)` as an index option. -/
def pyRFind (ch : Char) (p : List Char) : Option Nat :=
  ((List.range p.length).filter (fun i => p.getD i ' ' == ch)).getLast?

/-- The characters allowed in a URL scheme (`urllib.parse.scheme_chars`). -/
def schemeChar (c : Char) : Bool :=
  c.isAlpha || c.isDigit || c = '+' || c = '-' || c = '.'

/-- Result record of `urllib.parse.urlparse`. -/
structure UrlParts where
  scheme : List Char
  netloc : List Char
  path : List Char
  params : List Char
  query : List Char
  fragment : List Char
deriving DecidableEq, Repr

/-- `urllib.parse._splitparams`: split the `;parameters` suffix of the last
path segment. -/
def splitParams (p : List Char) : List Char × List Char :=
  let cut : Option Nat :=
    match pyRFind '/' p with
    | some k => pyFind ';' p k
    | none => pyFind ';' p 0
  match cut with
  | some i => (p.take i, p.drop (i + 1))
  | none => (p, [])

/-- `urllib.parse.urlparse`: scheme, then `//netloc`, then fragment, query
and params splits, as in CPython's `urlsplit` + `_splitparams`. -/
def urlparse (url : List Char) : UrlParts :=
  let (scheme, r1) :=
    match splitFirst ':' url with
    | some (before, after) =>
      if !before.isEmpty && (before.headD 'a').isAlpha && before.all schemeChar
      then (before.map pyLowerChar, after)
      else ([], url)
    | none => ([], url)
  let (netloc, r2) :=
    match r1 with
    | '/' :: '/' :: rest =>
      (rest.takeWhile (fun c => !(c = '/' || c = '?' || c = '#')),
       rest.dropWhile (fun c => !(c = '/' || c = '?' || c = '#')))
    | _ => ([], r1)
  let (r3, fragment) := (splitFirst '#' r2).getD (r2, [])
  let (r4, query) := (splitFirst '?' r3).getD (r3, [])
  let (path, params) := splitParams r4
  ⟨scheme, netloc, path, params, query, fragment⟩

/-- `os.path.splitext` on a bare file name (the scripts only apply it to
names inside one directory, so no path separators arise): split at the last
dot, unless every character before that dot is itself a dot. -/
def splitext (p : List Char) : List Char × List Char :=
  let extLen := (p.reverse.takeWhile (fun c => c ≠ '.')).length
  if extLen = p.length then (p, [])
  else
    let sepIdx := p.length - extLen - 1
    if (p.take sepIdx).any (fun c => c ≠ '.') then (p.take sepIdx, p.drop sepIdx)
    else (p, [])

/-- `is_pdf_href` of `download_kms_docs.py`: `.pdf` occurs in the lowered
URL path or query, or the lowered href ends in `.pdf`. -/
def is_pdf_href (href : List Char) : Bool :=
  let parsed := urlparse href
  hasSubstr ".pdf".toList (parsed.path.map pyLowerChar) ||
  hasSubstr ".pdf".toList (parsed.query.map pyLowerChar) ||
  (".pdf".toList).isSuffixOf (href.map pyLowerChar)

/-- Fragment of the Python stdlib `mimetypes` type-to-extension table
(`mimetypes.guess_extension`), restricted to single-extension entries the
proofs evaluate; unknown types give `none` as in the stdlib. -/
def mimetypes_guess_extension (ct : List Char) : Option (List Char) :=
  if ct = "application/pdf".toList then some ".pdf".toList
  else if ct = "image/png".toList then some ".png".toList
  else if ct = "image/jpeg".toList then some ".jpg".toList
  else if ct = "text/plain".toList then some ".txt".toList
  else if ct = "application/zip".toList then some ".zip".toList
  else none

/-- Fallback shared by both branches of `guess_ext`: the lowered extension
of the URL path, else `.bin`. -/
def urlExtFallback (url : List Char) : List Char :=
  let e := ((splitext (urlparse url).path).2).map pyLowerChar
  if e.isEmpty then ".bin".toList else e

/-- `guess_ext` of `download_kms_docs.py`: a PDF-looking URL wins first;
else the cleaned content type (exact `application/pdf`, else the mimetypes
table); else the URL path's extension; else `.bin`. -/
def guess_ext (contentType : Option (List Char)) (url : List Char) : List Char :=
  if is_pdf_href url then ".pdf".toList
  else
    match contentType with
    | some ctRaw =>
      let ct := (pyStrip (ctRaw.takeWhile (fun c => c ≠ ';'))).map pyLowerChar
      if ct = "application/pdf".toList then ".pdf".toList
      else
        match mimetypes_guess_extension ct with
        | some e => e.map pyLowerChar
        | none => urlExtFallback url
    | none => urlExtFallback url

/-- Extension choice in the order the spec describes it (content type is
ground truth, URL only a fallback): exact `application/pdf`, else the
mimetypes table, else the URL path's extension, else `.bin`.  Stated for
comparison with `guess_ext`, which consults the URL first. -/
def guess_ext_spec (contentType : Option (List Char)) (url : List Char) : List Char :=
  match contentType with
  | some ctRaw =>
    let ct := (pyStrip (ctRaw.takeWhile (fun c => c ≠ ';'))).map pyLowerChar
    if ct = "application/pdf".toList then ".pdf".toList
    else
      match mimetypes_guess_extension ct with
      | some e => e.map pyLowerChar
      | none => urlExtFallback url
  | none => urlExtFallback url

/-! ### Directory, `unique_path` and `download` -/

/-- Fuel-indexed big-endian decimal digit rendering (the fuel only makes
the division recursion structural; `natChars` supplies enough). -/
def natCharsAux : Nat → Nat → List Char
  | 0, _ => []
  | fuel + 1, n =>
    if n = 0 then [] else natCharsAux fuel (n / 10) ++ [Char.ofNat (48 + n % 10)]

/-- Decimal rendering of a number, as Python `str(i)` produces it for the
probe counter (which is always positive). -/
def natChars (i : Nat) : List Char := natCharsAux i i

/-- The `i`-th candidate name probed by `unique_path`: `stem+ext` first,
then `stem (i)+ext`. -/
def candName (stem ext : List Char) : Nat → List Char
  | 0 => stem ++ ext
  | i + 1 => stem ++ " (".toList ++ natChars (i + 1) ++ ")".toList ++ ext

/-- A destination directory: file names with their contents (abstracted to
a number).  Only this one folder matters to the scripts' writes. -/
abbrev Dir := List (List Char × Nat)

/-- The names present in a directory (`os.path.exists` domain). -/
def dirNames (d : Dir) : List (List Char) := d.map Prod.fst

/-- Contents of a directory entry. -/
def lookupD (d : Dir) (p : List Char) : Option Nat :=
  (d.find? (fun e => e.1 == p)).map Prod.snd

/-- Fuel-indexed probe loop of `unique_path`, starting at candidate `i`. -/
def uniquePathAux (names : List (List Char)) (stem ext : List Char) :
    Nat → Nat → Option (List Char)
  | 0, _ => none
  | fuel + 1, i =>
    if candName stem ext i ∈ names then uniquePathAux names stem ext fuel (i + 1)
    else some (candName stem ext i)

/-- `unique_path` of `download_kms_docs.py`: return the first candidate
name absent from the directory.  The Python `while True` loop always
terminates because the directory is finite; fuel `names.length + 1` is
proved sufficient below (`uniquePathAux_isSome`). -/
def unique_path (names : List (List Char)) (stem ext : List Char) : List Char :=
  (uniquePathAux names stem ext (names.length + 1) 0).getD (candName stem ext 0)

/-- `os.replace`-style write: overwrite an existing entry, else append. -/
def writeFile (d : Dir) (p : List Char) (c : Nat) : Dir :=
  if p ∈ dirNames d then d.map (fun e => if e.1 = p then (p, c) else e)
  else d ++ [(p, c)]

/-- `download` of `download_kms_docs.py`: after the response arrives, the
destination's extension is replaced by `guess_ext` of the response content
type and URL, and the body is written there.  The `.part` temporary plus
the atomic `os.replace` promotion net to a single write at the final path,
which is how the effect is modelled.  Returns the final path and the
directory after the write. -/
def download (d : Dir) (destPath : List Char) (ct : Option (List Char))
    (url : List Char) (body : Nat) : List Char × Dir :=
  let ext := guess_ext ct url
  let stem := (splitext destPath).1
  let final := stem ++ ext
  (final, writeFile d final body)

/-! ### HTML table model and column detection

A cell records whether it is a `th`, its extracted text
(`get_text(" ", strip=True)`) and the `href` values of its `<a href>`
children in order.  A table records the row found by `thead.find("tr")`
when a `thead` with a row exists, and the full `find_all("tr")` row list
in document order (tables are assumed flat, without nested tables). -/

structure Cell where
  isTh : Bool
  text : List Char
  links : List (List Char)
deriving DecidableEq, Repr

abbrev Row := List Cell

structure Table where
  thead : Option Row
  rows : List Row
deriving DecidableEq, Repr

/-- Header-row choice of `detect_designation_col`: the `thead` row when
present; else the first row containing a `th`; else the first row with any
cells at all. -/
def headerRowOf (t : Table) : Option Row :=
  match t.thead with
  | some r => some r
  | none =>
    match t.rows.find? (fun r => r.any (fun c => c.isTh)) with
    | some r => some r
    | none => t.rows.find? (fun r => !r.isEmpty)

/-- The normalized texts of the chosen header row's cells. -/
def headersOf (t : Table) : List (List Char) :=
  match headerRowOf t with
  | some r => r.map (fun c => normalize_text c.text)
  | none => []

/-- The designation marker substring `"обозн"`. -/
def marker : List Char := "обозн".toList

/-- Iteration core of Python `max(range(n), key=...)`: keep the current
best index, replacing it only on a strictly greater value. -/
def argmaxGo : List Nat → Nat → Nat → Nat → Nat
  | [], _, best, _ => best
  | c :: rest, i, best, bv =>
    if c > bv then argmaxGo rest (i + 1) i c else argmaxGo rest (i + 1) best bv

/-- Python `max(range(len(xs)), key=fun i => xs[i])`: the first index
attaining the maximum. -/
def pyArgmax : List Nat → Nat
  | [] => 0
  | c :: rest => argmaxGo rest 1 0 c

/-- The per-column link counts of the heuristic fallback: for each column
index below the widest row's width, how many rows after the first have a
cell there containing a hyperlink. -/
def linkCounts (t : Table) : List Nat :=
  let rows := t.rows
  let maxCols := (rows.map List.length).foldr max 0
  (List.range maxCols).map (fun col =>
    (rows.drop 1).countP (fun r =>
      match r[col]? with
      | some cell => !cell.links.isEmpty
      | none => false))

/-- `detect_designation_col` of `download_kms_docs.py`: first the header
texts (first one containing the marker wins), else the column with the
most links provided some count is positive, else no match. -/
def detect_designation_col (t : Table) : Option Nat :=
  match (headersOf t).findIdx? (fun h => hasSubstr marker h) with
  | some i => some i
  | none =>
    let lc := linkCounts t
    if lc.any (fun c => c > 0) then some (pyArgmax lc) else none

/-- `find_target_table` of `download_kms_docs.py`: the first table (in
document order) for which `detect_designation_col` succeeds, with its
column index. -/
def find_target_table : List Table → Option (Table × Nat)
  | [] => none
  | t :: rest =>
    match detect_designation_col t with
    | some i => some (t, i)
    | none => find_target_table rest

/-- `pick_pdf_link_from_cell`: the first PDF-looking hyperlink of the
cell, else its first hyperlink of any kind. -/
def pick_pdf_link_from_cell (c : Cell) : Option (List Char) :=
  match c.links.find? (fun a => is_pdf_href a) with
  | some a => some a
  | none => c.links.head?

/-- The `ONLY_PDF` configuration constant of `download_kms_docs.py`. -/
def ONLY_PDF : Bool := true

/-- One iteration of the row loop of `extract_rows`: skip short rows,
header-looking or empty or row-number designations, link-less cells and
(`ONLY_PDF`) non-PDF links; otherwise yield the sanitized designation and
the stripped href. -/
def extractRow (idx : Nat) (r : Row) : Option (List Char × List Char) :=
  match r[idx]? with
  | none => none
  | some cell =>
    let raw := normalize_text cell.text
    if hasSubstr marker raw || raw.isEmpty || raw = "№".toList then none
    else
      match pick_pdf_link_from_cell cell with
      | none => none
      | some a =>
        let href := pyStrip a
        if ONLY_PDF && !is_pdf_href href then none
        else some (sanitize_filename cell.text, href)

/-- `extract_rows` of `download_kms_docs.py`. -/
def extract_rows (t : Table) (idx : Nat) : List (List Char × List Char) :=
  t.rows.filterMap (extractRow idx)

/-- Example table of the spec's end-to-end scenario 1: header row
`№ / Обозначение / Файл` and one data row whose designation cell holds a
PDF link. -/
def exTableHdr : Table :=
  ⟨none,
   [[⟨true, "№".toList, []⟩, ⟨true, "Обозначение".toList, []⟩,
     ⟨true, "Файл".toList, []⟩],
    [⟨false, "1".toList, []⟩, ⟨false, "ABC-123".toList, ["files/abc.pdf".toList]⟩,
     ⟨false, "x".toList, []⟩]]⟩

/-- Example table without a marked header: column 1 carries the most
links across the data rows. -/
def exTableHeur : Table :=
  ⟨none,
   [[⟨false, "a".toList, []⟩, ⟨false, "b".toList, []⟩],
    [⟨false, "1".toList, []⟩, ⟨false, "x".toList, ["u.pdf".toList]⟩],
    [⟨false, "2".toList, ["v.pdf".toList]⟩, ⟨false, "y".toList, ["w.pdf".toList]⟩]]⟩

/-- Example table yielding no designation column (no marker, no links). -/
def exTableNone : Table :=
  ⟨none, [[⟨false, "x".toList, []⟩]]⟩

/-- Example directory for the collision-avoidance witness. -/
def exDir : Dir := [("B.pdf".toList, 5), ("A.pdf".toList, 1)]

/-! ### Exit codes of the two `main` entry points -/

/-- Outcome of the initial page fetch of `download_kms_docs.main`. -/
inductive FetchResult
  | failure
  | success (tables : List Table)
deriving DecidableEq, Repr

/-- Exit code of `download_kms_docs.main`: 1 when the page fetch fails,
2 when no table matches, 3 when the chosen table yields no rows, else 0
(per-item download failures never change the exit code). -/
def download_main : FetchResult → Nat
  | .failure => 1
  | .success tables =>
    match find_target_table tables with
    | none => 2
    | some (t, idx) => if (extract_rows t idx).isEmpty then 3 else 0

/-- Exit code of `search_and_highlight.main`: 1 on an empty query, 2 when
the documents directory is missing, 3 when it contains no PDFs, else 0
(both the no-matches path and the summary path leave the process with 0). -/
def search_main (queryNonempty docsDirExists : Bool) (pdfs : List (List Char)) : Nat :=
  if !queryNonempty then 1
  else if !docsDirExists then 2
  else if pdfs.isEmpty then 3
  else 0

/-! ### Rectangles, deduplication and highlighting -/

/-- An axis-aligned search-hit rectangle with exact rational coordinates. -/
structure Rect where
  x0 : ℚ
  y0 : ℚ
  x1 : ℚ
  y1 : ℚ
deriving DecidableEq, Repr

/-- Python `round(x, 2)` idealised over exact rationals: the rounded value
is `round (100 * x) / 100`, represented by its numerator.  Python's
round-half-even and this rounding agree except at exact half-cent
boundaries, which no statement below touches. -/
def round2 (q : ℚ) : ℤ := round (q * 100)

/-- The identity key used by `_dedup_rects`: the tuple of all four
coordinates rounded to 2 decimal digits. -/
def rectKey (r : Rect) : ℤ × ℤ × ℤ × ℤ :=
  (round2 r.x0, round2 r.y0, round2 r.x1, round2 r.y1)

/-- The `seen`-set loop of `_dedup_rects` (the set is modelled as the list
of keys inserted so far). -/
def dedupGo (seen : List (ℤ × ℤ × ℤ × ℤ)) : List Rect → List Rect
  | [] => []
  | r :: rest =>
    if rectKey r ∈ seen then dedupGo seen rest
    else r :: dedupGo (rectKey r :: seen) rest

/-- `_dedup_rects` of `search_and_highlight.py`: keep the first rectangle
of every rounded-coordinate key, in order. -/
def _dedup_rects (rects : List Rect) : List Rect := dedupGo [] rects

/-- `_search_rects`: the library returns, per case variant, a rectangle
list; the code concatenates them (`raw` here) and deduplicates. -/
def _search_rects (raw : List Rect) : List Rect := _dedup_rects raw

/-- Total hit count of `highlight_file` over the per-page raw search
results: one hit per surviving rectangle. -/
def highlight_hits (pagesRaw : List (List Rect)) : Nat :=
  ((pagesRaw.map _search_rects).map List.length).sum

/-- Result triple of `highlight_file` (hits, 1-based page numbers of pages
with surviving rectangles, output path set only when hits are positive). -/
structure HighlightResult where
  hits : Nat
  pages : List Nat
  outPath : Option (List Char)
deriving DecidableEq, Repr

/-- `highlight_file` of `search_and_highlight.py`, as a function of the
per-page raw search results (the concatenated case-variant rectangles):
hit count is `highlight_hits`, a page index `i` (0-based) is recorded as
`i + 1` when its surviving rectangles are nonempty, and the output path
(`out_dir / pdf_path.name`) is set only when hits are positive. -/
def highlight_file (outDirName fileName : List Char)
    (pagesRaw : List (List Rect)) : HighlightResult :=
  ⟨highlight_hits pagesRaw,
   ((List.range (pagesRaw.map _search_rects).length).filter
     (fun i => !((pagesRaw.map _search_rects).getD i []).isEmpty)).map
     (fun i => i + 1),
   if highlight_hits pagesRaw > 0 then
     some (outDirName ++ "/".toList ++ fileName)
   else none⟩

/-- Effect of one `highlight_file` call on the run's output directory
listing: an entry under the document's original filename appears only when
hits are positive (the `mkdir` + `save` branch); otherwise the listing is
untouched. -/
def highlight_effect (outEntries : List (List Char)) (fileName : List Char)
    (pagesRaw : List (List Rect)) : List (List Char) :=
  if highlight_hits pagesRaw > 0 then fileName :: outEntries else outEntries

/-! ## Helper lemmas -/

theorem sum_lengths_eq_zero_iff (ls : List (List Rect)) :
    (ls.map List.length).sum = 0 ↔ ∀ l ∈ ls, l = [] := by
  rw [List.sum_eq_zero_iff]
  constructor
  · intro h l hl
    have := h l.length (List.mem_map_of_mem List.length hl)
    exact List.eq_nil_of_length_eq_zero this
  · intro h x hx
    obtain ⟨l, hl, rfl⟩ := List.mem_map.1 hx
    simp [h l hl]

theorem round2_ne_of_far (a b : ℚ) (h : 1 / 100 < |a - b|) :
    round2 a ≠ round2 b := by
  intro heq
  have h1 : |a * 100 - (round (a * 100) : ℚ)| ≤ 1 / 2 := abs_sub_round (a * 100)
  have h2 : |b * 100 - (round (b * 100) : ℚ)| ≤ 1 / 2 := abs_sub_round (b * 100)
  have hr : (round (a * 100) : ℚ) = (round (b * 100) : ℚ) := by
    have : round (a * 100) = round (b * 100) := heq
    exact_mod_cast congrArg (Int.cast : ℤ → ℚ) this
  have hfar : 1 < |a * 100 - b * 100| := by
    have : a * 100 - b * 100 = (a - b) * 100 := by ring
    rw [this, abs_mul]
    have h100 : |(100 : ℚ)| = 100 := by norm_num
    rw [h100]
    nlinarith [h]
  have htri : |a * 100 - b * 100| ≤
      |a * 100 - (round (a * 100) : ℚ)| + |(round (a * 100) : ℚ) - b * 100| :=
    abs_sub_le _ _ _
  have h2' : |(round (a * 100) : ℚ) - b * 100| ≤ 1 / 2 := by
    rw [hr, abs_sub_comm]
    exact h2
  linarith

theorem dedup_pair_eq_key (r₁ r₂ : Rect) (h : rectKey r₁ = rectKey r₂) :
    _dedup_rects [r₁, r₂] = [r₁] := by
  simp [_dedup_rects, dedupGo, h]

theorem dedup_pair_ne_key (r₁ r₂ : Rect) (h : rectKey r₁ ≠ rectKey r₂) :
    _dedup_rects [r₁, r₂] = [r₁, r₂] := by
  have h' : ¬rectKey r₂ = rectKey r₁ := fun hh => h hh.symm
  simp [_dedup_rects, dedupGo, h']

/-! ## Claims -/

/-- C10: for every PDF and query, the `highlight_file` result triple
satisfies: the output path is set iff hits are positive, the recorded page
set is nonempty iff hits are positive, and every recorded page number is
at least 1 (1-based). -/
theorem highlight_file_result_invariants (o f : List Char)
    (pagesRaw : List (List Rect)) :
    ((highlight_file o f pagesRaw).outPath.isSome ↔
      0 < (highlight_file o f pagesRaw).hits) ∧
    ((highlight_file o f pagesRaw).pages ≠ [] ↔
      0 < (highlight_file o f pagesRaw).hits) ∧
    (∀ p ∈ (highlight_file o f pagesRaw).pages, 1 ≤ p) := by
  refine ⟨?_, ?_, ?_⟩
  · show (if highlight_hits pagesRaw > 0 then
        some (o ++ "/".toList ++ f) else none).isSome ↔ _
    by_cases h : 0 < highlight_hits pagesRaw
    · simp [h, highlight_file]
    · simp [h, highlight_file]
  · show ((List.range (pagesRaw.map _search_rects).length).filter
        (fun i => !((pagesRaw.map _search_rects).getD i []).isEmpty)).map
        (fun i => i + 1) ≠ [] ↔ 0 < highlight_hits pagesRaw
    rw [Ne, List.map_eq_nil_iff, List.filter_eq_nil_iff]
    unfold highlight_hits
    rw [Nat.pos_iff_ne_zero, Ne, sum_lengths_eq_zero_iff]
    constructor
    · intro hne hall
      apply hne
      intro i hi
      rw [List.mem_range] at hi
      have hmem : (pagesRaw.map _search_rects).getD i [] ∈
          pagesRaw.map _search_rects := by
        rw [List.getD_eq_getElem _ _ hi]
        exact List.getElem_mem hi
      rw [hall _ hmem]
      simp
    · intro hne hall
      apply hne
      intro l hl
      obtain ⟨i, hi, rfl⟩ := List.mem_iff_getElem.1 hl
      have := hall i (List.mem_range.2 hi)
      rw [List.getD_eq_getElem _ _ hi] at this
      simpa using this
  · intro p hp
    show 1 ≤ p
    have : p ∈ ((List.range (pagesRaw.map _search_rects).length).filter
        (fun i => !((pagesRaw.map _search_rects).getD i []).isEmpty)).map
        (fun i => i + 1) := hp
    obtain ⟨i, _, rfl⟩ := List.mem_map.1 this
    omega

/-- C10 witness: the invariants evaluated at a one-page, one-rectangle
input. -/
theorem highlight_file_result_invariants_witness :
    ((highlight_file "o".toList "f.pdf".toList [[⟨1, 0, 0, 0⟩]]).outPath.isSome ↔
      0 < (highlight_file "o".toList "f.pdf".toList [[⟨1, 0, 0, 0⟩]]).hits) ∧
    (1 : Nat) ≤ 1 :=
  ⟨(highlight_file_result_invariants "o".toList "f.pdf".toList [[⟨1, 0, 0, 0⟩]]).1,
   (highlight_file_result_invariants "o".toList "f.pdf".toList [[⟨1, 0, 0, 0⟩]]).2.2
     1 (by decide)⟩

/-- C5: a document whose total hit count is zero produces no output file
(the returned path is `none`) and adds nothing to the output directory
listing — the `mkdir` + `save` branch is not taken. -/
theorem zero_hits_no_artifact (o f : List Char) (outEntries : List (List Char))
    (pagesRaw : List (List Rect)) (h : highlight_hits pagesRaw = 0) :
    (highlight_file o f pagesRaw).outPath = none ∧
    highlight_effect outEntries f pagesRaw = outEntries := by
  constructor
  · show (if highlight_hits pagesRaw > 0 then
        some (o ++ "/".toList ++ f) else none) = none
    simp [h]
  · unfold highlight_effect
    simp [h]

/-- C5 witness: a two-page document with no raw search hits. -/
theorem zero_hits_no_artifact_witness :
    (highlight_file "o".toList "f.pdf".toList [[], []]).outPath = none ∧
    highlight_effect ["a.pdf".toList] "f.pdf".toList [[], []] = ["a.pdf".toList] :=
  zero_hits_no_artifact "o".toList "f.pdf".toList ["a.pdf".toList] [[], []] (by decide)

/-- C8 counterexample: the five fatal conditions do not carry pairwise
distinct exit codes — a run of the downloader that finds no matching table
and a run of the search script whose documents directory is missing both
terminate with exit code 2 (and likewise "no rows" and "no PDFs" share 3). -/
theorem exit_codes_not_distinct :
    download_main (.success []) = 2 ∧ search_main true false [] = 2 := by
  constructor <;> rfl

/-- C8 amended: the process exits 0 on success, and within each script the
fatal setup conditions carry distinct nonzero codes (downloader: fetch
failed 1, no table 2, no rows 3; search: empty query 1, documents
directory missing 2, no PDFs 3) — but the two scripts reuse the codes 2
and 3, so the five conditions are not pairwise distinct overall. -/
theorem exit_codes_per_script (ts : List Table) (t : Table) (i : Nat)
    (ps : List (List Char)) :
    download_main .failure = 1 ∧
    (find_target_table ts = none → download_main (.success ts) = 2) ∧
    (find_target_table ts = some (t, i) → (extract_rows t i).isEmpty →
      download_main (.success ts) = 3) ∧
    (find_target_table ts = some (t, i) → ¬(extract_rows t i).isEmpty →
      download_main (.success ts) = 0) ∧
    search_main false true ps = 1 ∧
    search_main true false ps = 2 ∧
    (ps.isEmpty → search_main true true ps = 3) ∧
    (¬ps.isEmpty → search_main true true ps = 0) := by
  refine ⟨rfl, ?_, ?_, ?_, rfl, rfl, ?_, ?_⟩
  · intro h
    simp [download_main, h]
  · intro h hemp
    simp [download_main, h, hemp]
  · intro h hemp
    simp only [download_main, h]
    rw [if_neg (by simpa using hemp)]
  · intro h
    simp [search_main, h]
  · intro h
    simp only [search_main]
    rw [if_neg (by simp), if_neg (by simp), if_neg (by simpa using h)]

/-- C8 amended witness: the code assignments evaluated on concrete runs. -/
theorem exit_codes_per_script_witness :
    download_main (.success []) = 2 ∧ search_main true true [] = 3 :=
  ⟨(exit_codes_per_script [] ⟨none, []⟩ 0 []).2.1 (by decide),
   (exit_codes_per_script [] ⟨none, []⟩ 0 []).2.2.2.2.2.2.1 (by decide)⟩

/-- C1 counterexample: the content type does not take precedence over the
URL — for a URL whose path contains `.pdf` and a response declaring
`image/png`, the code returns `.pdf` (the URL wins), while the spec's
content-type-first order would give `.png`. -/
theorem guess_ext_url_beats_content_type :
    guess_ext (some "image/png".toList) "http://h/doc.pdf".toList = ".pdf".toList ∧
    guess_ext_spec (some "image/png".toList) "http://h/doc.pdf".toList = ".png".toList ∧
    ".pdf".toList ≠ ".png".toList := by
  refine ⟨by decide, by decide, by decide⟩

/-- C1 amended: the URL's PDF-likeness is consulted first — whenever the
URL path or query contains `.pdf` (or the href ends in `.pdf`), the
extension is `.pdf` regardless of the content type; only otherwise does
the content type decide (exact `application/pdf`, then the generic
type-to-extension mapping), with the URL-path extension as fallback and
`.bin` as last resort. -/
theorem guess_ext_characterisation (ct : Option (List Char)) (url : List Char) :
    guess_ext ct url =
      if is_pdf_href url then ".pdf".toList else guess_ext_spec ct url := by
  by_cases h : is_pdf_href url <;>
    simp [guess_ext, guess_ext_spec, h]

/-- C4 counterexample: two rectangles whose coordinates differ by less
than the rounding precision (0.004 vs 0.006, difference 0.002 < 0.01) do
not collapse — they straddle a rounding boundary and both count. -/
theorem dedup_close_rects_not_collapsed :
    |(4 / 1000 : ℚ) - 6 / 1000| < 1 / 100 ∧
    _dedup_rects [⟨4 / 1000, 0, 0, 0⟩, ⟨6 / 1000, 0, 0, 0⟩] =
      [⟨4 / 1000, 0, 0, 0⟩, ⟨6 / 1000, 0, 0, 0⟩] := by
  constructor
  · rw [abs_sub_lt_iff]
    constructor <;> norm_num
  · apply dedup_pair_ne_key
    intro hkey
    have h0 := congrArg (fun k => k.1) hkey
    simp only [rectKey, round2] at h0
    norm_num [round_eq] at h0

/-- C4 amended: deduplication uses the rounded-coordinate tuple as the
identity key: two rectangles collapse to one hit exactly when their keys
agree; coordinates differing by more than the precision always give
distinct keys, so both count — but coordinates differing by less than the
precision may still round apart and count twice. -/
theorem dedup_pair_characterisation (r₁ r₂ : Rect) :
    (rectKey r₁ = rectKey r₂ → _dedup_rects [r₁, r₂] = [r₁]) ∧
    (rectKey r₁ ≠ rectKey r₂ → _dedup_rects [r₁, r₂] = [r₁, r₂]) ∧
    (1 / 100 < |r₁.x0 - r₂.x0| ∨ 1 / 100 < |r₁.y0 - r₂.y0| ∨
     1 / 100 < |r₁.x1 - r₂.x1| ∨ 1 / 100 < |r₁.y1 - r₂.y1| →
      _dedup_rects [r₁, r₂] = [r₁, r₂]) := by
  refine ⟨dedup_pair_eq_key r₁ r₂, dedup_pair_ne_key r₁ r₂, ?_⟩
  intro h
  apply dedup_pair_ne_key
  intro hkey
  have h0 := congrArg (fun k => k.1) hkey
  have h1 := congrArg (fun k => k.2.1) hkey
  have h2 := congrArg (fun k => k.2.2.1) hkey
  have h3 := congrArg (fun k => k.2.2.2) hkey
  simp only [rectKey] at h0 h1 h2 h3
  rcases h with h | h | h | h
  · exact round2_ne_of_far _ _ h h0
  · exact round2_ne_of_far _ _ h h1
  · exact round2_ne_of_far _ _ h h2
  · exact round2_ne_of_far _ _ h h3

/-- C4 amended witness: both behaviours at concrete rectangles — equal
keys collapse, a coordinate gap above the precision keeps both. -/
theorem dedup_pair_characterisation_witness :
    _dedup_rects [⟨1 / 1000, 0, 0, 0⟩, ⟨2 / 1000, 0, 0, 0⟩] =
      [⟨1 / 1000, 0, 0, 0⟩] ∧
    _dedup_rects [⟨0, 0, 0, 0⟩, ⟨2 / 100, 0, 0, 0⟩] =
      [⟨0, 0, 0, 0⟩, ⟨2 / 100, 0, 0, 0⟩] :=
  ⟨(dedup_pair_characterisation ⟨1 / 1000, 0, 0, 0⟩ ⟨2 / 1000, 0, 0, 0⟩).1
     (by simp only [rectKey, round2, Prod.mk.injEq]
         norm_num [round_eq]),
   (dedup_pair_characterisation ⟨0, 0, 0, 0⟩ ⟨2 / 100, 0, 0, 0⟩).2.2
     (Or.inl (by
       rw [show (0 : ℚ) - 2 / 100 = -(2 / 100) by ring, abs_neg,
         abs_of_nonneg (by norm_num)]
       norm_num))⟩

/-! ## Sanitizer lemmas -/

theorem takeHeadD (l : List Char) (k : Nat) (d : Char) :
    ((l.take (k + 1)).headD d) = l.headD d := by
  cases l <;> simp

theorem collapseGo_cons_ws_false (d : Char) (rest : List Char)
    (hd : pyIsSpace d = true) :
    collapseGo false (d :: rest) = ' ' :: collapseGo true rest := by
  simp [collapseGo, hd]

theorem collapseGo_cons_ws_true (d : Char) (rest : List Char)
    (hd : pyIsSpace d = true) :
    collapseGo true (d :: rest) = collapseGo true rest := by
  simp [collapseGo, hd]

theorem collapseGo_cons_nonws (b : Bool) (d : Char) (rest : List Char)
    (hd : pyIsSpace d = false) :
    collapseGo b (d :: rest) = d :: collapseGo false rest := by
  cases b <;> simp [collapseGo, hd]

theorem unescapeGo_no_amp (fuel : Nat) (l : List Char) (h : '&' ∉ l) :
    unescapeGo fuel l = l := by
  induction fuel generalizing l with
  | zero => cases l <;> rfl
  | succ f ih =>
    cases l with
    | nil => rfl
    | cons c rest =>
      have hc : ¬c = '&' := fun hh => h (by simp [hh])
      have hr : '&' ∉ rest := fun hm => h (List.mem_cons_of_mem _ hm)
      simp [unescapeGo, hc, ih rest hr]

theorem pyUnescape_no_amp (l : List Char) (h : '&' ∉ l) : pyUnescape l = l :=
  unescapeGo_no_amp _ l h

theorem dropWhile_eq_self_of_headD (p : Char → Bool) (l : List Char) (d : Char)
    (h : p (l.headD d) = false) : l.dropWhile p = l := by
  cases l with
  | nil => rfl
  | cons c rest =>
    simp only [List.headD_cons] at h
    simp [List.dropWhile_cons, h]

theorem headD_dropWhile_false (p : Char → Bool) (l : List Char) (d : Char)
    (hd : p d = false) : p ((l.dropWhile p).headD d) = false := by
  induction l with
  | nil => simpa
  | cons c rest ih =>
    by_cases hc : p c
    · simpa [List.dropWhile_cons, hc] using ih
    · simp only [List.dropWhile_cons]
      rw [if_neg (by simp [hc])]
      simpa [List.headD_cons] using hc

theorem pyStrip_eq_self (l : List Char)
    (h1 : pyIsSpace (l.headD 'a') = false)
    (h2 : pyIsSpace (l.reverse.headD 'a') = false) : pyStrip l = l := by
  unfold pyStrip
  rw [dropWhile_eq_self_of_headD _ _ _ h1, dropWhile_eq_self_of_headD _ _ _ h2,
    List.reverse_reverse]

theorem dropWhile_eq_self_of_all (p : Char → Bool) (l : List Char)
    (h : ∀ c ∈ l, p c = false) : l.dropWhile p = l := by
  cases l with
  | nil => rfl
  | cons c rest => simp [List.dropWhile_cons, h c (by simp)]

theorem pyStrip_no_ws (l : List Char) (h : ∀ c ∈ l, pyIsSpace c = false) :
    pyStrip l = l := by
  unfold pyStrip
  rw [dropWhile_eq_self_of_all _ _ h,
    dropWhile_eq_self_of_all _ _ (fun c hc => h c (List.mem_reverse.1 hc)),
    List.reverse_reverse]

theorem pyStrip_head_nonws (l : List Char) :
    pyIsSpace ((pyStrip l).headD 'a') = false := by
  unfold pyStrip
  cases hdw : l.dropWhile pyIsSpace with
  | nil => decide
  | cons d m =>
    have hd : pyIsSpace d = false := by
      have := headD_dropWhile_false pyIsSpace l 'a' (by decide)
      rw [hdw] at this
      simpa using this
    rw [← hdw]
    have hpre : ((l.dropWhile pyIsSpace).reverse.dropWhile pyIsSpace).reverse <+:
        l.dropWhile pyIsSpace :=
      List.rdropWhile_prefix pyIsSpace (l.dropWhile pyIsSpace)
    obtain ⟨t, ht⟩ := hpre
    cases hres : ((l.dropWhile pyIsSpace).reverse.dropWhile pyIsSpace).reverse with
    | nil => decide
    | cons e rest =>
      rw [hres] at ht
      rw [hdw] at ht
      simp only [List.cons_append] at ht
      rw [List.headD_cons, (List.cons_eq_cons.1 ht).1]
      exact hd

theorem replaceIllegal_no_illegal (l : List Char) :
    ∀ c ∈ replaceIllegal l, illegalChar c = false := by
  intro c hc
  obtain ⟨d, _, rfl⟩ := List.mem_map.1 hc
  by_cases hd : illegalChar d
  · rw [if_pos hd]
    decide
  · rw [if_neg hd]
    simpa using hd

theorem replaceIllegal_eq_self (l : List Char)
    (h : ∀ c ∈ l, illegalChar c = false) : replaceIllegal l = l := by
  unfold replaceIllegal
  conv_rhs => rw [← List.map_id l]
  apply List.map_congr_left
  intro c hc
  simp [h c hc]

theorem replaceIllegal_all_illegal (l : List Char)
    (h : ∀ c ∈ l, illegalChar c = true) :
    replaceIllegal l = List.replicate l.length '_' := by
  induction l with
  | nil => rfl
  | cons c rest ih =>
    simp only [replaceIllegal, List.map_cons, List.length_cons,
      List.replicate_succ]
    rw [if_pos (h c (by simp))]
    exact congrArg _ (ih (fun d hd => h d (by simp [hd])))

theorem replaceIllegal_head_nonws (l : List Char)
    (h : pyIsSpace (l.headD 'a') = false) :
    pyIsSpace ((replaceIllegal l).headD 'a') = false := by
  cases l with
  | nil => simpa using h
  | cons c rest =>
    simp only [replaceIllegal, List.map_cons, List.headD_cons]
    by_cases hc : illegalChar c
    · rw [if_pos hc]
      decide
    · rw [if_neg hc]
      simpa using h

theorem mem_collapseGo (l : List Char) (b : Bool) (c : Char)
    (h : c ∈ collapseGo b l) : c = ' ' ∨ c ∈ l := by
  induction l generalizing b with
  | nil => simp [collapseGo] at h
  | cons d rest ih =>
    by_cases hd : pyIsSpace d
    · cases b with
      | true =>
        rw [collapseGo_cons_ws_true d rest hd] at h
        rcases ih true h with h' | h'
        · exact Or.inl h'
        · exact Or.inr (List.mem_cons_of_mem _ h')
      | false =>
        rw [collapseGo_cons_ws_false d rest hd] at h
        rw [List.mem_cons] at h
        rcases h with h' | h'
        · exact Or.inl h'
        · rcases ih true h' with h'' | h''
          · exact Or.inl h''
          · exact Or.inr (List.mem_cons_of_mem _ h'')
    · rw [collapseGo_cons_nonws b d rest (by simpa using hd)] at h
      rw [List.mem_cons] at h
      rcases h with h' | h'
      · exact Or.inr (by simp [h'])
      · rcases ih false h' with h'' | h''
        · exact Or.inl h''
        · exact Or.inr (List.mem_cons_of_mem _ h'')

theorem headD_nonws_collapseGo_true (l : List Char) :
    pyIsSpace ((collapseGo true l).headD 'a') = false := by
  induction l with
  | nil => decide
  | cons d rest ih =>
    by_cases hd : pyIsSpace d
    · rw [collapseGo_cons_ws_true d rest hd]
      exact ih
    · rw [collapseGo_cons_nonws true d rest (by simpa using hd)]
      simpa [List.headD_cons] using hd

theorem wsOk_collapseGo (l : List Char) (b : Bool) :
    wsOk (collapseGo b l) = true := by
  induction l generalizing b with
  | nil => cases b <;> decide
  | cons d rest ih =>
    by_cases hd : pyIsSpace d
    · cases b with
      | true =>
        rw [collapseGo_cons_ws_true d rest hd]
        exact ih true
      | false =>
        rw [collapseGo_cons_ws_false d rest hd]
        rw [wsOk, Bool.and_eq_true, Bool.or_eq_true]
        refine ⟨Or.inr ?_, ih true⟩
        rw [Bool.and_eq_true]
        refine ⟨by decide, ?_⟩
        rw [Bool.not_eq_true']
        exact headD_nonws_collapseGo_true rest
    · rw [collapseGo_cons_nonws b d rest (by simpa using hd)]
      rw [wsOk, Bool.and_eq_true, Bool.or_eq_true]
      exact ⟨Or.inl (by simp [hd]), ih false⟩

theorem collapseGo_eq_self (l : List Char) (h : wsOk l = true) :
    collapseGo false l = l ∧
    (pyIsSpace (l.headD 'a') = false → collapseGo true l = l) := by
  induction l with
  | nil => exact ⟨rfl, fun _ => rfl⟩
  | cons d rest ih =>
    rw [wsOk, Bool.and_eq_true] at h
    obtain ⟨hcond, hrest⟩ := h
    obtain ⟨ihf, iht⟩ := ih hrest
    by_cases hd : pyIsSpace d
    · rw [Bool.or_eq_true] at hcond
      rcases hcond with hcond | hcond
      · rw [Bool.not_eq_eq_eq_not] at hcond
        simp [hd] at hcond
      · rw [Bool.and_eq_true] at hcond
        obtain ⟨hsp, hhead⟩ := hcond
        have hd' : d = ' ' := by simpa using hsp
        have hhead' : pyIsSpace (rest.headD 'a') = false := by
          simpa using hhead
        constructor
        · rw [collapseGo_cons_ws_false d rest hd]
          rw [iht hhead', hd']
        · intro hcontra
          rw [List.headD_cons] at hcontra
          rw [hcontra] at hd
          exact absurd hd (by simp)
    · constructor
      · rw [collapseGo_cons_nonws false d rest (by simpa using hd), ihf]
      · intro _
        rw [collapseGo_cons_nonws true d rest (by simpa using hd), ihf]

theorem collapse_no_ws_eq_self (l : List Char)
    (h : ∀ c ∈ l, pyIsSpace c = false) : collapseGo false l = l := by
  have hws : wsOk l = true := by
    induction l with
    | nil => rfl
    | cons d rest ih =>
      rw [wsOk, Bool.and_eq_true, Bool.or_eq_true]
      exact ⟨Or.inl (by simp [h d (by simp)]),
        ih (fun c hc => h c (by simp [hc]))⟩
  exact (collapseGo_eq_self l hws).1

theorem wsOk_take (l : List Char) (n : Nat) (h : wsOk l = true) :
    wsOk (l.take n) = true := by
  induction l generalizing n with
  | nil => simp [List.take_nil, wsOk]
  | cons d rest ih =>
    cases n with
    | zero => rfl
    | succ m =>
      rw [List.take_succ_cons]
      rw [wsOk, Bool.and_eq_true] at h
      obtain ⟨hcond, hrest⟩ := h
      rw [wsOk, Bool.and_eq_true]
      refine ⟨?_, ih m hrest⟩
      rw [Bool.or_eq_true] at hcond ⊢
      rcases hcond with hcond | hcond
      · exact Or.inl hcond
      · rw [Bool.and_eq_true] at hcond
        obtain ⟨hsp, hhead⟩ := hcond
        rw [Bool.and_eq_true]
        refine Or.inr ⟨hsp, ?_⟩
        cases m with
        | zero =>
          simp only [List.take_zero, List.headD_nil]
          decide
        | succ k =>
          rw [takeHeadD rest k 'a']
          exact hhead

theorem wsOk_mem_space (l : List Char) (h : wsOk l = true) :
    ∀ c ∈ l, pyIsSpace c = true → c = ' ' := by
  induction l with
  | nil => intro c hc; simp at hc
  | cons d rest ih =>
    rw [wsOk, Bool.and_eq_true] at h
    obtain ⟨hcond, hrest⟩ := h
    intro c hc hcw
    rw [List.mem_cons] at hc
    rcases hc with rfl | hc
    · rw [Bool.or_eq_true] at hcond
      rcases hcond with hcond | hcond
      · rw [Bool.not_eq_eq_eq_not] at hcond
        simp [hcw] at hcond
      · rw [Bool.and_eq_true] at hcond
        simpa using hcond.1
    · exact ih hrest c hc hcw

theorem headD_collapseGo_false_nonws (l : List Char)
    (h : pyIsSpace (l.headD 'a') = false) :
    (collapseGo false l).headD 'a' = l.headD 'a' := by
  cases l with
  | nil => rfl
  | cons c rest =>
    rw [List.headD_cons] at h
    simp only [collapseGo]
    rw [if_neg (by simp [h])]
    simp

/-- The structural invariants every `sanitize_filename` output satisfies:
no illegal characters, canonical whitespace, length at most 180, nonempty,
and a non-whitespace first character. -/
theorem sanitize_filename_props (s : List Char) :
    (∀ c ∈ sanitize_filename s, illegalChar c = false) ∧
    wsOk (sanitize_filename s) = true ∧
    (sanitize_filename s).length ≤ 180 ∧
    sanitize_filename s ≠ [] ∧
    pyIsSpace ((sanitize_filename s).headD 'a') = false := by
  unfold sanitize_filename
  by_cases he : ((collapseWs (replaceIllegal (pyStrip (pyUnescape s)))).take 180).isEmpty
  · rw [if_pos he]
    refine ⟨?_, ?_, ?_, ?_, ?_⟩ <;> decide
  · rw [if_neg he]
    have hne : (collapseWs (replaceIllegal (pyStrip (pyUnescape s)))).take 180 ≠ [] := by
      simpa [List.isEmpty_iff] using he
    refine ⟨?_, ?_, ?_, hne, ?_⟩
    · intro c hc
      have hc' : c ∈ collapseWs (replaceIllegal (pyStrip (pyUnescape s))) :=
        List.mem_of_mem_take hc
      rcases mem_collapseGo _ false c hc' with rfl | hc''
      · decide
      · exact replaceIllegal_no_illegal _ c hc''
    · exact wsOk_take _ 180 (wsOk_collapseGo _ false)
    · rw [List.length_take]
      omega
    · show pyIsSpace (((collapseGo false
        (replaceIllegal (pyStrip (pyUnescape s)))).take 180).headD 'a') = false
      rw [takeHeadD _ 179 'a']
      rw [headD_collapseGo_false_nonws _
        (replaceIllegal_head_nonws _ (pyStrip_head_nonws _))]
      exact replaceIllegal_head_nonws _ (pyStrip_head_nonws _)

/-- C2 counterexample: an input consisting only of illegal characters is
not mapped to the placeholder — the sanitizer replaces each illegal
character with an underscore, so `"?"` becomes `"_"`, not `"document"`. -/
theorem sanitize_all_illegal_not_placeholder :
    sanitize_filename "?".toList = "_".toList ∧
    sanitize_filename "?".toList ≠ "document".toList :=
  ⟨by decide, by decide⟩

/-- C2 amended: every nonempty input of non-whitespace illegal characters
sanitizes to a same-length (up to the 180-char cap) string of underscores
— the placeholder `"document"` is substituted exactly when the processed
result is empty (e.g. for whitespace-only input), and the sanitizer never
returns an empty name. -/
theorem sanitize_all_illegal_underscores (s s' : List Char) (hne : s ≠ [])
    (hall : ∀ c ∈ s, illegalChar c = true ∧ pyIsSpace c = false) :
    sanitize_filename s = List.replicate (min 180 s.length) '_' ∧
    sanitize_filename s' ≠ [] := by
  refine ⟨?_, (sanitize_filename_props s').2.2.2.1⟩
  have hamp : '&' ∉ s := by
    intro hmem
    have := (hall '&' hmem).1
    exact absurd this (by decide)
  have hnw : ∀ c ∈ s, pyIsSpace c = false := fun c hc => (hall c hc).2
  have hmin : 1 ≤ min 180 s.length := by
    have : 1 ≤ s.length := List.length_pos.2 hne
    omega
  simp only [sanitize_filename]
  rw [pyUnescape_no_amp s hamp, pyStrip_no_ws s hnw,
    replaceIllegal_all_illegal s (fun c hc => (hall c hc).1)]
  rw [collapseWs, collapse_no_ws_eq_self _ (by
    intro c hc
    rw [List.eq_of_mem_replicate hc]
    decide)]
  rw [List.take_replicate]
  rw [if_neg (by
    simp only [List.isEmpty_iff]
    intro hh
    have hlen0 := congrArg List.length hh
    simp only [List.length_replicate, List.length_nil] at hlen0
    omega)]

/-- C2 amended witness: the underscore behaviour at `"?"` and the
nonemptiness at the empty input. -/
theorem sanitize_all_illegal_underscores_witness :
    sanitize_filename "?".toList = List.replicate (min 180 ("?".toList).length) '_' ∧
    sanitize_filename [] ≠ [] :=
  sanitize_all_illegal_underscores "?".toList [] (by decide) (by decide)

/-- C9 counterexample: the sanitizer is not idempotent — HTML-entity
decoding runs again on the output, so `"&amp;amp;"` sanitizes to
`"&amp;"`, which sanitizes further to `"&"`. -/
theorem sanitize_filename_not_idempotent :
    sanitize_filename (sanitize_filename "&amp;amp;".toList) ≠
      sanitize_filename "&amp;amp;".toList := by decide

/-- C9 amended: the sanitizer is idempotent on every input whose sanitized
result contains no ampersand (so the second entity-decoding pass is inert)
and does not end in a space (which only the 180-char truncation can
produce and a second pass would strip). -/
theorem sanitize_filename_idempotent_cond (s : List Char)
    (hamp : '&' ∉ sanitize_filename s)
    (hsp : (sanitize_filename s).getLast? ≠ some ' ') :
    sanitize_filename (sanitize_filename s) = sanitize_filename s := by
  obtain ⟨hleg, hws, hlen, hne, hhead⟩ := sanitize_filename_props s
  have hlast : pyIsSpace ((sanitize_filename s).reverse.headD 'a') = false := by
    cases hrev : (sanitize_filename s).reverse with
    | nil => decide
    | cons c rest =>
      have hc : c ∈ sanitize_filename s := by
        rw [← List.mem_reverse, hrev]
        simp
      rw [List.headD_cons]
      by_cases hcw : pyIsSpace c
      · have hsp' : c = ' ' := wsOk_mem_space _ hws c hc hcw
        exfalso
        apply hsp
        rw [← List.head?_reverse, hrev, List.head?_cons, hsp']
      · simpa using hcw
  set o := sanitize_filename s with ho
  show sanitize_filename o = o
  simp only [sanitize_filename]
  rw [pyUnescape_no_amp _ hamp, pyStrip_eq_self _ hhead hlast,
    replaceIllegal_eq_self _ hleg, collapseWs, (collapseGo_eq_self _ hws).1,
    List.take_of_length_le hlen]
  rw [if_neg (by
    simp only [List.isEmpty_iff]
    exact hne)]

/-- C9 amended witness: idempotence at a concrete designation. -/
theorem sanitize_filename_idempotent_cond_witness :
    sanitize_filename (sanitize_filename "ABC-123".toList) =
      sanitize_filename "ABC-123".toList :=
  sanitize_filename_idempotent_cond "ABC-123".toList (by decide) (by decide)

/-! ## Column-detection lemmas -/

theorem argmaxGo_all_le (rest : List Nat) (i b bv : Nat)
    (h : ∀ x ∈ rest, x ≤ bv) : argmaxGo rest i b bv = b := by
  induction rest generalizing i with
  | nil => rfl
  | cons c rs ih =>
    have hc : c ≤ bv := h c (by simp)
    rw [argmaxGo, if_neg (by omega)]
    exact ih (i + 1) (fun x hx => h x (by simp [hx]))

theorem argmaxGo_first_max (rest : List Nat) (k : Nat) (hk : k < rest.length)
    (i b bv : Nat) (hgt : bv < rest.getD k 0)
    (hbefore : ∀ j, j < k → rest.getD j 0 < rest.getD k 0)
    (hafter : ∀ j, k < j → j < rest.length → rest.getD j 0 ≤ rest.getD k 0) :
    argmaxGo rest i b bv = i + k := by
  induction rest generalizing k i b bv with
  | nil => simp at hk
  | cons c rs ih =>
    cases k with
    | zero =>
      rw [List.getD_cons_zero] at hgt
      rw [argmaxGo, if_pos (by omega)]
      have hle : ∀ x ∈ rs, x ≤ c := by
        intro x hx
        obtain ⟨j, hj, rfl⟩ := List.mem_iff_getElem.1 hx
        have := hafter (j + 1) (Nat.succ_pos j) (by simpa using hj)
        rw [List.getD_cons_succ, List.getD_cons_zero] at this
        rw [List.getD_eq_getElem _ _ hj] at this
        exact this
      rw [argmaxGo_all_le rs (i + 1) i c hle]
      omega
    | succ m =>
      rw [List.getD_cons_succ] at hgt
      have hk' : m < rs.length := by simpa using hk
      have hbefore' : ∀ j, j < m → rs.getD j 0 < rs.getD m 0 := by
        intro j hj
        have := hbefore (j + 1) (by omega)
        simpa using this
      have hafter' : ∀ j, m < j → j < rs.length → rs.getD j 0 ≤ rs.getD m 0 := by
        intro j h1 h2
        have := hafter (j + 1) (by omega) (by simpa using h2)
        simpa using this
      by_cases hc : c > bv
      · rw [argmaxGo, if_pos hc]
        have h0 : c < rs.getD m 0 := by
          have := hbefore 0 (Nat.succ_pos m)
          simpa using this
        rw [ih m hk' (i + 1) i c h0 hbefore' hafter']
        omega
      · rw [argmaxGo, if_neg hc]
        rw [ih m hk' (i + 1) b bv hgt hbefore' hafter']
        omega

theorem pyArgmax_first_max (counts : List Nat) (k : Nat) (hk : k < counts.length)
    (hbefore : ∀ j, j < k → counts.getD j 0 < counts.getD k 0)
    (hafter : ∀ j, k < j → j < counts.length → counts.getD j 0 ≤ counts.getD k 0) :
    pyArgmax counts = k := by
  cases counts with
  | nil => simp at hk
  | cons c rs =>
    cases k with
    | zero =>
      show argmaxGo rs 1 0 c = 0
      apply argmaxGo_all_le
      intro x hx
      obtain ⟨j, hj, rfl⟩ := List.mem_iff_getElem.1 hx
      have := hafter (j + 1) (by omega) (by simpa using hj)
      rw [List.getD_cons_succ, List.getD_cons_zero] at this
      rw [List.getD_eq_getElem _ _ hj] at this
      exact this
    | succ m =>
      show argmaxGo rs 1 0 c = m + 1
      have h0 : c < rs.getD m 0 := by
        have := hbefore 0 (by omega)
        simpa using this
      rw [argmaxGo_first_max rs m (by simpa using hk) 1 0 c h0 ?_ ?_]
      · omega
      · intro j hj
        have := hbefore (j + 1) (by omega)
        simpa using this
      · intro j h1 h2
        have := hafter (j + 1) (by omega) (by simpa using h2)
        simpa using this

theorem findIdx?_eq_none_of_all (p : List Char → Bool) (l : List (List Char))
    (i : Nat) (h : ∀ x ∈ l, p x = false) : l.findIdx? p i = none := by
  induction l generalizing i with
  | nil => rfl
  | cons x rest ih =>
    rw [List.findIdx?_cons, if_neg (by simp [h x (by simp)])]
    exact ih (i + 1) (fun y hy => h y (by simp [hy]))

theorem findIdx?_first (p : List Char → Bool) (l : List (List Char)) (i k : Nat)
    (hk : k < l.length) (hpk : p (l.getD k []) = true)
    (hbefore : ∀ j, j < k → p (l.getD j []) = false) :
    l.findIdx? p i = some (i + k) := by
  induction l generalizing i k with
  | nil => simp at hk
  | cons x rest ih =>
    rw [List.findIdx?_cons]
    cases k with
    | zero =>
      rw [List.getD_cons_zero] at hpk
      rw [if_pos hpk]
      simp
    | succ m =>
      have h0 : p x = false := by
        have := hbefore 0 (Nat.succ_pos m)
        simpa using this
      rw [if_neg (by simp [h0])]
      rw [List.getD_cons_succ] at hpk
      rw [ih (i + 1) m (by simpa using hk) hpk ?_]
      · congr 1
        omega
      · intro j hj
        have := hbefore (j + 1) (by omega)
        simpa using this

/-- C6: for a table whose (normalized) header texts nowhere contain the
designation marker, the classifier falls back to the per-column link
counts over the rows after the first: all counts zero gives no match, a
strict maximum at nonzero count `i` gives `i`, and a tie is broken by the
lowest index among the maxima. -/
theorem heuristic_column_detection (t : Table) (i : Nat)
    (hnohdr : ∀ h ∈ headersOf t, hasSubstr marker h = false) :
    ((∀ c ∈ linkCounts t, c = 0) → detect_designation_col t = none) ∧
    (i < (linkCounts t).length → 0 < (linkCounts t).getD i 0 →
      (∀ j, j < (linkCounts t).length → j ≠ i →
        (linkCounts t).getD j 0 < (linkCounts t).getD i 0) →
      detect_designation_col t = some i) ∧
    (i < (linkCounts t).length → 0 < (linkCounts t).getD i 0 →
      (∀ j, j < i → (linkCounts t).getD j 0 < (linkCounts t).getD i 0) →
      (∀ j, i < j → j < (linkCounts t).length →
        (linkCounts t).getD j 0 ≤ (linkCounts t).getD i 0) →
      detect_designation_col t = some i) := by
  have hnone : (headersOf t).findIdx? (fun h => hasSubstr marker h) = none :=
    findIdx?_eq_none_of_all _ _ 0 hnohdr
  have key : i < (linkCounts t).length → 0 < (linkCounts t).getD i 0 →
      (∀ j, j < i → (linkCounts t).getD j 0 < (linkCounts t).getD i 0) →
      (∀ j, i < j → j < (linkCounts t).length →
        (linkCounts t).getD j 0 ≤ (linkCounts t).getD i 0) →
      detect_designation_col t = some i := by
    intro hk hpos hb ha
    have hmem : (linkCounts t).getD i 0 ∈ linkCounts t := by
      rw [List.getD_eq_getElem _ _ hk]
      exact List.getElem_mem hk
    simp only [detect_designation_col, hnone]
    rw [if_pos (List.any_eq_true.2 ⟨_, hmem, by simpa using hpos⟩)]
    exact congrArg some (pyArgmax_first_max _ i hk hb ha)
  refine ⟨?_, ?_, key⟩
  · intro hz
    simp only [detect_designation_col, hnone]
    rw [if_neg ?_]
    rw [List.any_eq_true]
    rintro ⟨x, hx, hx'⟩
    rw [hz x hx] at hx'
    simp at hx'
  · intro hk hpos hstrict
    exact key hk hpos (fun j hj => hstrict j (by omega) (by omega))
      (fun j h1 h2 => Nat.le_of_lt (hstrict j h2 (by omega)))

/-- C6 witness: the heuristic at a concrete headerless table whose second
column carries strictly more links. -/
theorem heuristic_column_detection_witness :
    detect_designation_col exTableHeur = some 1 :=
  (heuristic_column_detection exTableHeur 1 (by decide)).2.1 (by decide) (by decide)
    (by
      intro j hj hne
      have h2 : (linkCounts exTableHeur).length = 2 := by decide
      rw [h2] at hj
      interval_cases j
      · decide
      · exact absurd rfl hne)

/-- C7: for a table whose chosen header row has a (first) cell whose
normalized text contains the designation marker at column `i`, the
classifier returns `i` directly — whatever the link structure of the
table — and `find_target_table` returns that table and index as soon as
every earlier table yields no match, regardless of its position. -/
theorem header_marker_detection (pre post : List Table) (t : Table) (i : Nat)
    (hpre : ∀ t' ∈ pre, detect_designation_col t' = none)
    (hk : i < (headersOf t).length)
    (hmark : hasSubstr marker ((headersOf t).getD i []) = true)
    (hfirst : ∀ j, j < i → hasSubstr marker ((headersOf t).getD j []) = false) :
    detect_designation_col t = some i ∧
    find_target_table (pre ++ t :: post) = some (t, i) := by
  have hdet : detect_designation_col t = some i := by
    have hidx : (headersOf t).findIdx? (fun h => hasSubstr marker h) = some i := by
      have := findIdx?_first (fun h => hasSubstr marker h) (headersOf t) 0 i hk
        hmark hfirst
      simpa using this
    simp [detect_designation_col, hidx]
  refine ⟨hdet, ?_⟩
  revert hpre
  induction pre with
  | nil =>
    intro _
    simp [find_target_table, hdet]
  | cons t0 rest ih =>
    intro hpre
    have h0 : detect_designation_col t0 = none := hpre t0 (by simp)
    rw [List.cons_append]
    rw [show find_target_table (t0 :: (rest ++ t :: post)) =
        find_target_table (rest ++ t :: post) from by
      simp [find_target_table, h0]]
    exact ih (fun t' ht' => hpre t' (List.mem_cons_of_mem _ ht'))

/-- C7 witness: the header rule at the spec's scenario-1 table, preceded
by a table yielding no match. -/
theorem header_marker_detection_witness :
    detect_designation_col exTableHdr = some 1 ∧
    find_target_table [exTableNone, exTableHdr] = some (exTableHdr, 1) :=
  header_marker_detection [exTableNone] [] exTableHdr 1 (by decide) (by decide)
    (by decide)
    (by
      intro j hj
      interval_cases j
      decide)

/-! ## Collision-avoidance lemmas -/

theorem natCharsAux_eq_digits (fuel n : Nat) (h : n ≤ fuel) :
    natCharsAux fuel n =
      ((Nat.digits 10 n).reverse).map (fun d => Char.ofNat (48 + d)) := by
  induction fuel generalizing n with
  | zero =>
    have : n = 0 := by omega
    subst this
    simp [natCharsAux]
  | succ f ih =>
    by_cases hn : n = 0
    · subst hn
      simp [natCharsAux]
    · rw [natCharsAux, if_neg hn]
      rw [Nat.digits_def' (by norm_num : (1 : ℕ) < 10) (Nat.pos_of_ne_zero hn)]
      rw [List.reverse_cons, List.map_append]
      rw [ih (n / 10) (by omega)]
      rfl

theorem natChars_eq_digits (i : Nat) :
    natChars i = ((Nat.digits 10 i).reverse).map (fun d => Char.ofNat (48 + d)) :=
  natCharsAux_eq_digits i i (Nat.le_refl i)

theorem natChars_inj (i j : Nat) (h : natChars i = natChars j) : i = j := by
  rw [natChars_eq_digits, natChars_eq_digits] at h
  have hinj : ∀ d, d < 10 → ∀ e, e < 10 →
      Char.ofNat (48 + d) = Char.ofNat (48 + e) → d = e := by decide
  have key : ∀ (l1 l2 : List Nat), (∀ d ∈ l1, d < 10) → (∀ d ∈ l2, d < 10) →
      l1.map (fun d => Char.ofNat (48 + d)) = l2.map (fun d => Char.ofNat (48 + d)) →
      l1 = l2 := by
    intro l1
    induction l1 with
    | nil =>
      intro l2 _ _ hmap
      cases l2 with
      | nil => rfl
      | cons b r2 => simp at hmap
    | cons a r ih =>
      intro l2 h1 h2 hmap
      cases l2 with
      | nil => simp at hmap
      | cons b r2 =>
        simp only [List.map_cons, List.cons.injEq] at hmap
        obtain ⟨hab, hr⟩ := hmap
        rw [hinj a (h1 a (by simp)) b (h2 b (by simp)) hab,
          ih r2 (fun d hd => h1 d (by simp [hd])) (fun d hd => h2 d (by simp [hd])) hr]
  have hrev : (Nat.digits 10 i).reverse = (Nat.digits 10 j).reverse := by
    apply key
    · intro d hd
      exact Nat.digits_lt_base (by norm_num) (List.mem_reverse.1 hd)
    · intro d hd
      exact Nat.digits_lt_base (by norm_num) (List.mem_reverse.1 hd)
    · exact h
  have hdig : Nat.digits 10 i = Nat.digits 10 j := by
    have := congrArg List.reverse hrev
    simpa using this
  calc i = Nat.ofDigits 10 (Nat.digits 10 i) := (Nat.ofDigits_digits 10 i).symm
    _ = Nat.ofDigits 10 (Nat.digits 10 j) := by rw [hdig]
    _ = j := Nat.ofDigits_digits 10 j

theorem natChars_ne_nil (i : Nat) (hi : i ≠ 0) : natChars i ≠ [] := by
  rw [natChars_eq_digits]
  simp [Nat.digits_ne_nil_iff_ne_zero, hi]

theorem natChars_one : natChars 1 = ['1'] := by decide

theorem candName_inj (stem ext : List Char) (i j : Nat)
    (h : candName stem ext i = candName stem ext j) : i = j := by
  have hlen1 : ∀ m : Nat, 1 ≤ (natChars (m + 1)).length :=
    fun m => List.length_pos.2 (natChars_ne_nil (m + 1) (by omega))
  match i, j with
  | 0, 0 => rfl
  | 0, j + 1 =>
    exfalso
    have hlen := congrArg List.length h
    simp only [candName, List.length_append] at hlen
    have := hlen1 j
    simp at hlen
    omega
  | i + 1, 0 =>
    exfalso
    have hlen := congrArg List.length h
    simp only [candName, List.length_append] at hlen
    have := hlen1 i
    simp at hlen
    omega
  | i + 1, j + 1 =>
    simp only [candName, List.append_assoc] at h
    have h1 := List.append_cancel_left h
    have h2 := List.append_cancel_left h1
    have hnc : natChars (i + 1) = natChars (j + 1) :=
      List.append_cancel_right h2
    have := natChars_inj (i + 1) (j + 1) hnc
    omega

theorem candName_stem (stem ext : List Char) (k : Nat) :
    ∃ s', candName stem ext k = s' ++ ext ∧ ∀ c ∈ stem, c ∈ s' := by
  cases k with
  | zero => exact ⟨stem, rfl, fun c hc => hc⟩
  | succ m =>
    refine ⟨stem ++ " (".toList ++ natChars (m + 1) ++ ")".toList, ?_, ?_⟩
    · simp [candName, List.append_assoc]
    · intro c hc
      simp [hc]

theorem uniquePathAux_none_mem (names : List (List Char)) (stem ext : List Char) :
    ∀ fuel i, uniquePathAux names stem ext fuel i = none →
      ∀ j, j < fuel → candName stem ext (i + j) ∈ names := by
  intro fuel
  induction fuel with
  | zero =>
    intro i _ j hj
    omega
  | succ f ih =>
    intro i h j hj
    rw [uniquePathAux] at h
    by_cases hmem : candName stem ext i ∈ names
    · rw [if_pos hmem] at h
      cases j with
      | zero => simpa using hmem
      | succ m =>
        have := ih (i + 1) h m (by omega)
        rw [show i + (m + 1) = (i + 1) + m by omega]
        exact this
    · rw [if_neg hmem] at h
      simp at h

theorem uniquePathAux_isSome (names : List (List Char)) (stem ext : List Char) :
    (uniquePathAux names stem ext (names.length + 1) 0).isSome = true := by
  by_contra hns
  have hnone : uniquePathAux names stem ext (names.length + 1) 0 = none := by
    cases h : uniquePathAux names stem ext (names.length + 1) 0 with
    | none => rfl
    | some p =>
      rw [h] at hns
      simp at hns
  have hall : ∀ j, j < names.length + 1 → candName stem ext j ∈ names := by
    intro j hj
    have := uniquePathAux_none_mem names stem ext (names.length + 1) 0 hnone j hj
    simpa using this
  have hcard : (Finset.range (names.length + 1)).card ≤ names.toFinset.card := by
    apply Finset.card_le_card_of_injOn (fun j => candName stem ext j)
    · intro j hj
      rw [List.mem_toFinset]
      exact hall j (Finset.mem_range.1 hj)
    · intro a _ b _ hab
      exact candName_inj stem ext a b hab
  rw [Finset.card_range] at hcard
  have := names.toFinset_card_le
  omega

theorem uniquePathAux_not_mem (names : List (List Char)) (stem ext : List Char) :
    ∀ fuel i p, uniquePathAux names stem ext fuel i = some p → p ∉ names := by
  intro fuel
  induction fuel with
  | zero =>
    intro i p h
    simp [uniquePathAux] at h
  | succ f ih =>
    intro i p h
    rw [uniquePathAux] at h
    by_cases hmem : candName stem ext i ∈ names
    · rw [if_pos hmem] at h
      exact ih (i + 1) p h
    · rw [if_neg hmem] at h
      obtain rfl : candName stem ext i = p := by simpa using h
      exact hmem

theorem uniquePathAux_cand (names : List (List Char)) (stem ext : List Char) :
    ∀ fuel i p, uniquePathAux names stem ext fuel i = some p →
      ∃ k, p = candName stem ext k := by
  intro fuel
  induction fuel with
  | zero =>
    intro i p h
    simp [uniquePathAux] at h
  | succ f ih =>
    intro i p h
    rw [uniquePathAux] at h
    by_cases hmem : candName stem ext i ∈ names
    · rw [if_pos hmem] at h
      exact ih (i + 1) p h
    · rw [if_neg hmem] at h
      exact ⟨i, by simpa using h.symm⟩

theorem unique_path_not_mem (names : List (List Char)) (stem ext : List Char) :
    unique_path names stem ext ∉ names := by
  unfold unique_path
  obtain ⟨p, hp⟩ := Option.isSome_iff_exists.1 (uniquePathAux_isSome names stem ext)
  rw [hp]
  exact uniquePathAux_not_mem names stem ext _ 0 p hp

theorem unique_path_cand (names : List (List Char)) (stem ext : List Char) :
    ∃ k, unique_path names stem ext = candName stem ext k := by
  unfold unique_path
  obtain ⟨p, hp⟩ := Option.isSome_iff_exists.1 (uniquePathAux_isSome names stem ext)
  rw [hp]
  exact uniquePathAux_cand names stem ext _ 0 p hp

theorem splitext_append_pdf (s : List Char) (hs : ∃ c ∈ s, c ≠ '.') :
    splitext (s ++ ".pdf".toList) = (s, ".pdf".toList) := by
  have hrev : (s ++ ".pdf".toList).reverse = 'f' :: 'd' :: 'p' :: '.' :: s.reverse := by
    rw [List.reverse_append]
    rfl
  have htw : ('f' :: 'd' :: 'p' :: '.' :: s.reverse).takeWhile
      (fun c => decide (c ≠ '.')) = ['f', 'd', 'p'] := by
    rw [List.takeWhile_cons, if_pos (by decide), List.takeWhile_cons,
      if_pos (by decide), List.takeWhile_cons, if_pos (by decide),
      List.takeWhile_cons, if_neg (by decide)]
  have hlen : (s ++ ".pdf".toList).length = s.length + 4 := by simp
  have hany : s.any (fun c => decide (c ≠ '.')) = true := by
    obtain ⟨c, hc, hcne⟩ := hs
    exact List.any_eq_true.2 ⟨c, hc, by simpa using hcne⟩
  simp only [splitext, hrev, htw]
  rw [if_neg (by
    intro hh
    rw [hlen] at hh
    simp at hh)]
  rw [hlen]
  rw [show s.length + 4 - ([ 'f', 'd', 'p' ] : List Char).length - 1 = s.length by
    simp]
  rw [List.take_left, List.drop_left]
  rw [if_pos hany]

/-- C3 counterexample: a download whose response-derived extension differs
from the probed one overwrites an existing file — with `A.bin` present,
the probe reserves `A.pdf`, but a response with no content type for a URL
without an extension retargets the write to `A.bin`, replacing its
contents. -/
theorem download_overwrites_on_ext_change :
    (download [("A.bin".toList, 7)]
        (unique_path (dirNames [("A.bin".toList, 7)]) "A".toList ".pdf".toList)
        none "http://h/a".toList 9).1 ∈ dirNames [("A.bin".toList, 7)] ∧
    lookupD (download [("A.bin".toList, 7)]
        (unique_path (dirNames [("A.bin".toList, 7)]) "A".toList ".pdf".toList)
        none "http://h/a".toList 9).2 "A.bin".toList = some 9 ∧
    lookupD [("A.bin".toList, 7)] "A.bin".toList = some 7 :=
  ⟨by decide, by decide, by decide⟩

theorem writeFile_not_mem (d : Dir) (p : List Char) (c : Nat)
    (h : p ∉ dirNames d) : writeFile d p c = d ++ [(p, c)] := by
  unfold writeFile
  rw [if_neg h]

theorem lookupD_append (d l2 : Dir) (p : List Char) (cont : Nat)
    (h : lookupD d p = some cont) : lookupD (d ++ l2) p = some cont := by
  induction d with
  | nil => simp [lookupD] at h
  | cons e rest ih =>
    rw [List.cons_append]
    unfold lookupD at h ⊢
    by_cases hpe : (e.1 == p) = true
    · rw [@List.find?_cons_of_pos _ (fun x => x.1 == p) e rest hpe] at h
      rw [@List.find?_cons_of_pos _ (fun x => x.1 == p) e (rest ++ l2) hpe]
      exact h
    · rw [@List.find?_cons_of_neg _ (fun x => x.1 == p) e rest hpe] at h
      rw [@List.find?_cons_of_neg _ (fun x => x.1 == p) e (rest ++ l2) hpe]
      exact ih h

/-- C3 amended: provided the response-derived extension equals the probed
`.pdf` (as holds throughout the main pipeline, which only downloads
PDF-looking URLs) and the stem contains a non-dot character, the download
writes to a name absent from the directory — no existing file is
overwritten, other entries keep their contents, and when `stem.pdf`
already exists (and `stem (1).pdf` does not) the probe yields exactly
`stem (1).pdf`.  Without extension stability the final path is never
re-probed and an overwrite is possible. -/
theorem download_no_overwrite (d : Dir) (stem : List Char)
    (ct : Option (List Char)) (url : List Char) (body : Nat)
    (p : List Char) (cont : Nat)
    (hstem : ∃ c ∈ stem, c ≠ '.')
    (hext : guess_ext ct url = ".pdf".toList) :
    ((download d (unique_path (dirNames d) stem ".pdf".toList) ct url body).1 ∉
      dirNames d) ∧
    (p ≠ (download d (unique_path (dirNames d) stem ".pdf".toList) ct url body).1 →
      lookupD d p = some cont →
      lookupD ((download d (unique_path (dirNames d) stem ".pdf".toList)
        ct url body).2) p = some cont) ∧
    (stem ++ ".pdf".toList ∈ dirNames d →
      stem ++ " (1).pdf".toList ∉ dirNames d →
      unique_path (dirNames d) stem ".pdf".toList = stem ++ " (1).pdf".toList) := by
  have hfinal : (download d (unique_path (dirNames d) stem ".pdf".toList)
      ct url body).1 = unique_path (dirNames d) stem ".pdf".toList := by
    obtain ⟨k, hk⟩ := unique_path_cand (dirNames d) stem ".pdf".toList
    obtain ⟨s', hs', hsub⟩ := candName_stem stem ".pdf".toList k
    have hs'dot : ∃ c ∈ s', c ≠ '.' := by
      obtain ⟨c, hc, hcne⟩ := hstem
      exact ⟨c, hsub c hc, hcne⟩
    simp only [download]
    rw [hk, hs', splitext_append_pdf s' hs'dot, hext]
  have hnotmem : (download d (unique_path (dirNames d) stem ".pdf".toList)
      ct url body).1 ∉ dirNames d := by
    rw [hfinal]
    exact unique_path_not_mem (dirNames d) stem ".pdf".toList
  refine ⟨hnotmem, ?_, ?_⟩
  · intro hp hlook
    have hw : (download d (unique_path (dirNames d) stem ".pdf".toList)
        ct url body).2 = d ++ [((download d (unique_path (dirNames d) stem
          ".pdf".toList) ct url body).1, body)] := by
      simp only [download]
      rw [writeFile_not_mem]
      simpa only [download] using hnotmem
    rw [hw]
    exact lookupD_append d _ p cont hlook
  · intro h0 h1
    unfold unique_path
    have hc1 : candName stem (".pdf".toList) 1 = stem ++ " (1).pdf".toList := by
      show stem ++ " (".toList ++ natChars 1 ++ ")".toList ++ ".pdf".toList = _
      rw [natChars_one]
      simp only [List.append_assoc]
      exact congrArg (stem ++ ·) (by decide)
    obtain ⟨m, hm⟩ : ∃ m, (dirNames d).length = m + 1 := by
      cases hn : dirNames d with
      | nil =>
        rw [hn] at h0
        simp at h0
      | cons a l => exact ⟨l.length, by simp [hn]⟩
    rw [hm]
    rw [uniquePathAux, if_pos (by simpa [candName] using h0)]
    rw [uniquePathAux, if_neg (by rw [hc1]; exact h1)]
    rw [Option.getD_some, hc1]

/-- C3 amended witness: with `A.pdf` (and `B.pdf`) present and a PDF
response, the second `A` download goes to `A (1).pdf`, leaving `B.pdf`
intact. -/
theorem download_no_overwrite_witness :
    ((download exDir (unique_path (dirNames exDir) "A".toList ".pdf".toList)
      (some "application/pdf".toList) "u".toList 2).1 ∉ dirNames exDir) ∧
    lookupD ((download exDir (unique_path (dirNames exDir) "A".toList
      ".pdf".toList) (some "application/pdf".toList) "u".toList 2).2)
      "B.pdf".toList = some 5 ∧
    unique_path (dirNames exDir) "A".toList ".pdf".toList =
      "A".toList ++ " (1).pdf".toList :=
  ⟨(download_no_overwrite exDir "A".toList (some "application/pdf".toList)
      "u".toList 2 "B.pdf".toList 5 (by decide) (by decide)).1,
   (download_no_overwrite exDir "A".toList (some "application/pdf".toList)
      "u".toList 2 "B.pdf".toList 5 (by decide) (by decide)).2.1
     (by decide) (by decide),
   (download_no_overwrite exDir "A".toList (some "application/pdf".toList)
      "u".toList 2 "B.pdf".toList 5 (by decide) (by decide)).2.2
     (by decide) (by decide)⟩

end Gost
